import Mathlib

/-!
Verification of the fragment read engine declared in
`src/core/include/fragment/read_state.h`.  The repository ships only the class
declaration; the behaviour of each method is therefore modelled from the
specification (`spec.md`), as recorded in the doc comment of every definition.
Cells and byte payloads are modelled as lists of natural numbers, capacities as
natural numbers, and coordinates as integers.
-/

/-- A cell payload: the bytes of one array cell for one attribute. -/
abbrev Cell := List Nat

/-- Modelled from the spec: the body of `ReadState::read` is absent from `src/`
(only its declaration, `read_state.h:117`).  Per spec sections 4.5 and 4.6, one
`read` call for a fixed-size attribute copies from the stream of qualifying
cells (in the array cell order), starting at the per-attribute cursor `k`, as
many whole cells as fit in the caller-supplied capacity `cap` in bytes, i.e.
`cap / s` cells of cell size `s`. -/
def readCallOut (cells : List Cell) (s k cap : Nat) : List Cell :=
  (cells.drop k).take (cap / s)

/-- Modelled from the spec: the resumption cursor (`tiles_offsets_` together
with `overlapping_tiles_pos_`, abstracted to a position in the stream of
qualifying cells) advances past the cells written by the call. -/
def readCallCursor (cells : List Cell) (s k cap : Nat) : Nat :=
  k + (readCallOut cells s k cap).length

/-- Modelled from the spec: successive resumable `read` calls with per-call
capacities `caps`, threading the cursor from call to call.  Returns the
concatenated written cells and the final cursor. -/
def runReads (cells : List Cell) (s : Nat) : List Nat → Nat → List Cell × Nat
  | [], k => ([], k)
  | cap :: caps, k =>
    let out := readCallOut cells s k cap
    let r := runReads cells s caps (k + out.length)
    (out ++ r.1, r.2)

/-- The bytes written into a caller buffer: the concatenation of the cells. -/
def bytesOf (out : List Cell) : List Nat := out.flatten

theorem take_length_take {α : Type} (l : List α) (n : Nat) :
    l.take ((l.take n).length) = l.take n := by
  rw [List.length_take]
  rcases Nat.le_total n l.length with h | h
  · rw [Nat.min_eq_left h]
  · rw [Nat.min_eq_right h, List.take_length, List.take_of_length_le h]

theorem le_runReads_cursor (cells : List Cell) (s : Nat) (caps : List Nat)
    (k : Nat) : k ≤ (runReads cells s caps k).2 := by
  induction caps generalizing k with
  | nil => exact Nat.le_refl k
  | cons cap caps ih =>
    simp only [runReads]
    exact Nat.le_trans (Nat.le_add_right k _) (ih _)

theorem runReads_cursor_le (cells : List Cell) (s : Nat) (caps : List Nat)
    (k : Nat) (h : k ≤ cells.length) :
    (runReads cells s caps k).2 ≤ cells.length := by
  induction caps generalizing k with
  | nil => exact h
  | cons cap caps ih =>
    simp only [runReads]
    apply ih
    have hlen : (readCallOut cells s k cap).length ≤ cells.length - k := by
      simp [readCallOut]
    omega

theorem runReads_out (cells : List Cell) (s : Nat) (caps : List Nat)
    (k : Nat) (h : k ≤ cells.length) :
    (runReads cells s caps k).1 =
      (cells.drop k).take ((runReads cells s caps k).2 - k) := by
  induction caps generalizing k with
  | nil => simp [runReads]
  | cons cap caps ih =>
    simp only [runReads]
    have hlen : (readCallOut cells s k cap).length =
        min (cap / s) (cells.length - k) := by
      simp [readCallOut]
    have hka : k + (readCallOut cells s k cap).length ≤ cells.length := by omega
    have hK := le_runReads_cursor cells s caps
      (k + (readCallOut cells s k cap).length)
    rw [ih _ hka]
    have hsplit : (runReads cells s caps
          (k + (readCallOut cells s k cap).length)).2 - k =
        (readCallOut cells s k cap).length +
          ((runReads cells s caps (k + (readCallOut cells s k cap).length)).2 -
            (k + (readCallOut cells s k cap).length)) := by omega
    rw [hsplit, List.take_add]
    congr 1
    · exact (take_length_take (cells.drop k) (cap / s)).symm
    · congr 1
      rw [List.drop_drop]

/-- **C1** (resumability).  For every stream of qualifying cells, every positive
cell size, and every sequence of consecutive `read` calls whose capacities are
each at least one cell and which together consume the whole result, the
concatenation of the bytes written by the successive calls equals the bytes
written by a single call whose buffer holds the entire result. -/
theorem read_resumability (cells : List Cell) (s : Nat) (caps : List Nat)
    (hs0 : 0 < s) (_hs : ∀ c ∈ caps, s ≤ c)
    (hcover : (runReads cells s caps 0).2 = cells.length) :
    bytesOf (runReads cells s caps 0).1 =
      bytesOf (readCallOut cells s 0 (s * cells.length)) := by
  rw [runReads_out cells s caps 0 (Nat.zero_le _), hcover]
  rw [readCallOut, List.drop_zero, Nat.mul_div_cancel_left _ hs0]
  simp

/-- Witness for `read_resumability` at a concrete input: three two-byte cells,
read with capacities 2 and 4 bytes. -/
theorem read_resumability_w :
    (0 < 2 ∧ (∀ c ∈ [2, 4], 2 ≤ c) ∧
      (runReads [[1, 2], [3, 4], [5, 6]] 2 [2, 4] 0).2 =
        [[1, 2], [3, 4], [5, 6]].length) ∧
    bytesOf (runReads [[1, 2], [3, 4], [5, 6]] 2 [2, 4] 0).1 =
      bytesOf (readCallOut [[1, 2], [3, 4], [5, 6]] 2 0
        (2 * [[1, 2], [3, 4], [5, 6]].length)) :=
  ⟨⟨by decide, by decide, by decide⟩,
    read_resumability [[1, 2], [3, 4], [5, 6]] 2 [2, 4]
      (by decide) (by decide) (by decide)⟩

/-- Modelled from the spec: `compute_bytes_to_copy` for a variable-size
attribute (declaration only, `read_state.h:197-204`; spec section 4.5): the
number of whole cells copied is the longest prefix, among the cells whose
offsets fit the offsets-buffer free space, whose values fit the values-buffer
free space.  `varCellsFit lens capVar` counts how many leading cells with value
lengths `lens` fit in `capVar` free bytes. -/
def varCellsFit : List Nat → Nat → Nat
  | [], _ => 0
  | l :: ls, capVar => if l ≤ capVar then varCellsFit ls (capVar - l) + 1 else 0

/-- Modelled from the spec: `compute_bytes_to_copy` (read_state.h:197-204)
returns the pair (bytes to copy into the offsets buffer, bytes to copy into the
values buffer), given the value lengths `lens` of the remaining qualifying
cells, the size `w` of one offset entry, and the two free spaces. -/
def compute_bytes_to_copy (lens : List Nat) (w cap capVar : Nat) : Nat × Nat :=
  let n := varCellsFit (lens.take (cap / w)) capVar
  (w * n, ((lens.take (cap / w)).take n).sum)

theorem varCellsFit_le_length (lens : List Nat) (capVar : Nat) :
    varCellsFit lens capVar ≤ lens.length := by
  induction lens generalizing capVar with
  | nil => exact Nat.le_refl 0
  | cons l ls ih =>
    simp only [varCellsFit]
    split
    · exact Nat.succ_le_succ (ih _)
    · exact Nat.zero_le _

theorem sum_take_varCellsFit (lens : List Nat) (capVar : Nat) :
    (lens.take (varCellsFit lens capVar)).sum ≤ capVar := by
  induction lens generalizing capVar with
  | nil => simp
  | cons l ls ih =>
    simp only [varCellsFit]
    split
    · rename_i hl
      rw [List.take_succ_cons, List.sum_cons]
      have := ih (capVar - l)
      omega
    · simp

theorem flatten_length_uniform (out : List Cell) (s : Nat)
    (h : ∀ c ∈ out, c.length = s) : out.flatten.length = s * out.length := by
  induction out with
  | nil => simp
  | cons c cs ih =>
    simp only [List.flatten_cons, List.length_append, List.length_cons]
    rw [h c (List.mem_cons_self c cs), ih fun x hx => h x (List.mem_cons_of_mem c hx)]
    ring

/-- **C4** (buffer-bound safety).  For every read call, every attribute, and
every caller-supplied capacity, the bytes written into the attribute buffer
never exceed its capacity `cap`; for a variable-size attribute the bytes
written into the offsets buffer never exceed `cap` and the bytes written into
the values buffer never exceed `capVar`. -/
theorem read_buffer_bound (cells : List Cell) (s k cap : Nat)
    (lens : List Nat) (w capOff capVar : Nat)
    (hcells : ∀ c ∈ cells, c.length = s) :
    (bytesOf (readCallOut cells s k cap)).length ≤ cap ∧
    (compute_bytes_to_copy lens w capOff capVar).1 ≤ capOff ∧
    (compute_bytes_to_copy lens w capOff capVar).2 ≤ capVar := by
  refine ⟨?_, ?_, ?_⟩
  · have hmem : ∀ c ∈ readCallOut cells s k cap, c.length = s := fun c hc =>
      hcells c (List.mem_of_mem_drop (List.mem_of_mem_take hc))
    rw [bytesOf, flatten_length_uniform _ s hmem]
    have h1 : (readCallOut cells s k cap).length ≤ cap / s := by
      simp [readCallOut]
    calc s * (readCallOut cells s k cap).length
        ≤ s * (cap / s) := Nat.mul_le_mul_left s h1
      _ = cap / s * s := Nat.mul_comm _ _
      _ ≤ cap := Nat.div_mul_le_self cap s
  · have h1 : varCellsFit (lens.take (capOff / w)) capVar ≤ capOff / w :=
      Nat.le_trans (varCellsFit_le_length _ _) (by simp)
    calc w * varCellsFit (lens.take (capOff / w)) capVar
        ≤ w * (capOff / w) := Nat.mul_le_mul_left w h1
      _ = capOff / w * w := Nat.mul_comm _ _
      _ ≤ capOff := Nat.div_mul_le_self capOff w
  · exact sum_take_varCellsFit _ _

/-- Witness for `read_buffer_bound` at a concrete input: two three-byte cells,
capacity 4 bytes; a variable attribute with value lengths 2, 5 and 1,
offset width 8, offsets capacity 17, values capacity 6. -/
theorem read_buffer_bound_w :
    (∀ c ∈ [[7, 7, 7], [9, 9, 9]], List.length c = 3) ∧
    ((bytesOf (readCallOut [[7, 7, 7], [9, 9, 9]] 3 0 4)).length ≤ 4 ∧
      (compute_bytes_to_copy [2, 5, 1] 8 17 6).1 ≤ 17 ∧
      (compute_bytes_to_copy [2, 5, 1] 8 17 6).2 ≤ 6) :=
  ⟨by decide, read_buffer_bound [[7, 7, 7], [9, 9, 9]] 3 0 4 [2, 5, 1] 8 17 6
    (by decide)⟩

/-- **C2** counterexample.  Two attributes of cell size one byte, the same two
qualifying cells and the same entry cursor in a single `read` call, but
capacities 1 and 2 bytes: attribute `a` writes one cell and attribute `b`
writes two, so `cells_written(a) = cells_written(b)` fails. -/
theorem attr_alignment_cex :
    (readCallOut [[0], [1]] 1 0 1).length ≠ (readCallOut [[0], [1]] 1 0 2).length := by
  decide

/-- **C2** (amended).  When the per-attribute cursors coincide at call entry and
no attribute overflows in the call (each remaining capacity, in cells, holds
all the remaining qualifying cells), every pair of attributes writes the same
number of cells, and the entry at logical index `i` of each attribute's buffer
is that attribute's payload for the same array cell, the one at position
`k + i` in the stream of qualifying cells. -/
theorem attr_alignment (cellsA cellsB : List Cell) (sA sB k capA capB : Nat)
    (hlen : cellsA.length = cellsB.length)
    (hA : cellsA.length - k ≤ capA / sA)
    (hB : cellsB.length - k ≤ capB / sB) :
    (readCallOut cellsA sA k capA).length = (readCallOut cellsB sB k capB).length ∧
    ∀ i : Nat, (readCallOut cellsA sA k capA)[i]? = cellsA[k + i]? ∧
      (readCallOut cellsB sB k capB)[i]? = cellsB[k + i]? := by
  have hAe : readCallOut cellsA sA k capA = cellsA.drop k := by
    rw [readCallOut]
    apply List.take_of_length_le
    simp
    omega
  have hBe : readCallOut cellsB sB k capB = cellsB.drop k := by
    rw [readCallOut]
    apply List.take_of_length_le
    simp
    omega
  refine ⟨?_, ?_⟩
  · rw [hAe, hBe, List.length_drop, List.length_drop, hlen]
  · intro i
    rw [hAe, hBe]
    exact ⟨List.getElem?_drop cellsA k i, List.getElem?_drop cellsB k i⟩

/-- Witness for `attr_alignment` at a concrete input: two attributes over three
qualifying cells with cursors at 1 and ample capacities. -/
theorem attr_alignment_w :
    ([[1], [2], [3]] : List Cell).length = ([[4, 4], [5, 5], [6, 6]] : List Cell).length ∧
    ((readCallOut [[1], [2], [3]] 1 1 9).length =
        (readCallOut [[4, 4], [5, 5], [6, 6]] 2 1 9).length ∧
      ∀ i : Nat, (readCallOut [[1], [2], [3]] 1 1 9)[i]? = [[1], [2], [3]][1 + i]? ∧
        (readCallOut [[4, 4], [5, 5], [6, 6]] 2 1 9)[i]? = [[4, 4], [5, 5], [6, 6]][1 + i]? ) :=
  ⟨by decide, attr_alignment [[1], [2], [3]] [[4, 4], [5, 5], [6, 6]] 1 2 1 9 9
    (by decide) (by decide) (by decide)⟩

/-- Result of one `read` call of the per-attribute driver: the returned status
(`ok = true` stands for `TILEDB_RS_OK = 0`, `ok = false` for
`TILEDB_RS_ERR = -1`, `read_state.h:45-46`), the cells written, the cursors
(`overlapping_tiles_pos_` and the intra-tile position abstracting
`tiles_offsets_`, `tiles_var_offsets_` and `cell_pos_range_pos_`), and the
attribute's overflow flag. -/
structure DriverResult where
  ok : Bool
  out : List Cell
  tilePos : Nat
  cellOff : Nat
  overflow : Bool
  deriving Repr, DecidableEq

/-- Modelled from the spec: `copy_from_tile_buffer_*` (declared `void`,
`read_state.h:265-428`; spec section 4.5).  Copying from an already cached tile
into the caller buffer is a total operation: it yields the copied cells, the
new intra-tile cursor and the overflow flag, and has no failure outcome. -/
def copy_from_tile_buffer (t : List Cell) (off cap : Nat) :
    List Cell × Nat × Bool :=
  if cap < t.length - off then ((t.drop off).take cap, off + cap, true)
  else (t.drop off, t.length, false)

/-- Modelled from the spec: the bodies of `read_*_attr_*`,
`get_tile_from_disk_*` and `read_tile_from_file_*` are absent from `src/`
(declarations only, `read_state.h:638-958`; spec sections 4.4 and 4.6).
`fetchOk p` tells whether fetching tile `p` (open, read or mmap, decompress)
succeeds; a short read counts as a failure.  The driver walks the remaining
overlapping tiles `ts` for one attribute from tile position `pos` and intra-tile
cursor `off` with `cap` cells of free buffer space: a failed fetch returns the
error status with the cursors exactly as they were before the failing fetch;
otherwise the qualifying cells are copied (`copy_from_tile_buffer`) until the
capacity is exhausted — setting the overflow flag — or the tiles run out. -/
def readDriver (fetchOk : Nat → Bool) :
    List (List Cell) → Nat → Nat → Nat → DriverResult
  | [], pos, off, _ => ⟨true, [], pos, off, false⟩
  | t :: ts, pos, off, cap =>
    if cap = 0 then ⟨true, [], pos, off, false⟩
    else if fetchOk pos = false then ⟨false, [], pos, off, false⟩
    else
      let c := copy_from_tile_buffer t off cap
      if c.2.2 then ⟨true, c.1, pos, c.2.1, true⟩
      else
        let r := readDriver fetchOk ts (pos + 1) 0 (cap - (t.length - off))
        { r with out := c.1 ++ r.out }

theorem readDriver_ok_of_fetchOk (fetchOk : Nat → Bool)
    (ts : List (List Cell)) (pos off cap : Nat)
    (h : ∀ p, fetchOk p = true) :
    (readDriver fetchOk ts pos off cap).ok = true := by
  induction ts generalizing pos off cap with
  | nil => rfl
  | cons t ts ih =>
    simp only [readDriver, h pos]
    split
    · rfl
    · simp only [Bool.true_eq_false, if_false]
      split
      · rfl
      · exact ih _ _ _

theorem le_readDriver_tilePos (fetchOk : Nat → Bool)
    (ts : List (List Cell)) (pos off cap : Nat) :
    pos ≤ (readDriver fetchOk ts pos off cap).tilePos := by
  induction ts generalizing pos off cap with
  | nil => exact Nat.le_refl pos
  | cons t ts ih =>
    simp only [readDriver]
    split
    · exact Nat.le_refl pos
    · split
      · exact Nat.le_refl pos
      · split
        · exact Nat.le_refl pos
        · exact Nat.le_trans (Nat.le_succ pos) (ih _ _ _)

theorem readDriver_err_fetch (fetchOk : Nat → Bool)
    (ts : List (List Cell)) (pos off cap : Nat)
    (h : (readDriver fetchOk ts pos off cap).ok = false) :
    fetchOk (readDriver fetchOk ts pos off cap).tilePos = false := by
  induction ts generalizing pos off cap with
  | nil => simp [readDriver] at h
  | cons t ts ih =>
    by_cases hcap : cap = 0
    · simp [readDriver, hcap] at h
    · by_cases hf : fetchOk pos = false
      · simp [readDriver, hcap, hf]
      · by_cases hov : (copy_from_tile_buffer t off cap).2.2 = true
        · simp [readDriver, hcap, hf, hov] at h
        · have h1 : (readDriver fetchOk ts (pos + 1) 0
              (cap - (t.length - off))).ok = false := by
            simpa [readDriver, hcap, hf, hov] using h
          simpa [readDriver, hcap, hf, hov] using ih _ _ _ h1

theorem readDriver_err_cursor (fetchOk : Nat → Bool)
    (ts : List (List Cell)) (pos off cap : Nat)
    (h : (readDriver fetchOk ts pos off cap).ok = false) :
    (readDriver fetchOk ts pos off cap).cellOff =
      (if (readDriver fetchOk ts pos off cap).tilePos = pos then off else 0) ∧
    (readDriver fetchOk ts pos off cap).overflow = false := by
  induction ts generalizing pos off cap with
  | nil => simp [readDriver] at h
  | cons t ts ih =>
    by_cases hcap : cap = 0
    · simp [readDriver, hcap] at h
    · by_cases hf : fetchOk pos = false
      · simp [readDriver, hcap, hf]
      · by_cases hov : (copy_from_tile_buffer t off cap).2.2 = true
        · simp [readDriver, hcap, hf, hov] at h
        · have h1 : (readDriver fetchOk ts (pos + 1) 0
              (cap - (t.length - off))).ok = false := by
            simpa [readDriver, hcap, hf, hov] using h
          have hmono := le_readDriver_tilePos fetchOk ts (pos + 1) 0
            (cap - (t.length - off))
          have hih := ih _ _ _ h1
          have hne : (readDriver fetchOk ts (pos + 1) 0
              (cap - (t.length - off))).tilePos ≠ pos := by omega
          have hc0 : (readDriver fetchOk ts (pos + 1) 0
              (cap - (t.length - off))).cellOff = 0 := by
            rw [hih.1]
            split <;> rfl
          constructor
          · simp [readDriver, hcap, hf, hov, hc0, hne]
          · simpa [readDriver, hcap, hf, hov] using hih.2

/-- **C3** (return-code contract of `read`).  The call returns `TILEDB_RS_OK`
(modelled as `ok = true`) whenever no hard error occurred — in particular when
a buffer overflowed or when the result is empty — and an error return always
originates in an I/O or decompression failure of some tile fetch; a buffer
overflow never by itself causes an error return (an overflowed call has
`ok = true`). -/
theorem read_status_contract (fetchOk : Nat → Bool) (ts : List (List Cell))
    (pos off cap : Nat) :
    ((∀ p, fetchOk p = true) → (readDriver fetchOk ts pos off cap).ok = true) ∧
    ((readDriver fetchOk ts pos off cap).ok = false → ∃ p, fetchOk p = false) ∧
    ((readDriver fetchOk ts pos off cap).overflow = true →
      (readDriver fetchOk ts pos off cap).ok = true) := by
  refine ⟨readDriver_ok_of_fetchOk fetchOk ts pos off cap, ?_, ?_⟩
  · intro h
    exact ⟨_, readDriver_err_fetch fetchOk ts pos off cap h⟩
  · intro hov
    cases hok : (readDriver fetchOk ts pos off cap).ok with
    | true => rfl
    | false =>
      have h2 := (readDriver_err_cursor fetchOk ts pos off cap hok).2
      rw [h2] at hov
      exact absurd hov (by simp)

/-- Witness for `read_status_contract`: a one-tile query with an always
succeeding fetch oracle returns `TILEDB_RS_OK` even though the one-cell buffer
overflows on the two-cell tile. -/
theorem read_status_contract_w :
    (readDriver (fun _ => true) [[[1], [2]]] 0 0 1).ok = true :=
  (read_status_contract (fun _ => true) [[[1], [2]]] 0 0 1).1 (fun _ => rfl)

/-- **C5** (error atomicity).  When a tile open, read, mmap, or decompression
operation fails — a short read counts as such a failure —, `read` returns
`TILEDB_RS_ERR` and the cursors are exactly as they were before the failing
fetch: the returned tile position is the tile whose fetch failed, the
intra-tile cursor (abstracting `tiles_offsets_`, `tiles_var_offsets_` and
`cell_pos_range_pos_`) equals the entry offset when the failure hits the first
tile of the call and the fresh offset `0` of a just-reached tile otherwise,
and the failing step records no overflow. -/
theorem read_error_atomicity (fetchOk : Nat → Bool) (ts : List (List Cell))
    (pos off cap : Nat)
    (h : (readDriver fetchOk ts pos off cap).ok = false) :
    fetchOk (readDriver fetchOk ts pos off cap).tilePos = false ∧
    (readDriver fetchOk ts pos off cap).cellOff =
      (if (readDriver fetchOk ts pos off cap).tilePos = pos then off else 0) ∧
    (readDriver fetchOk ts pos off cap).overflow = false :=
  ⟨readDriver_err_fetch fetchOk ts pos off cap h,
    (readDriver_err_cursor fetchOk ts pos off cap h).1,
    (readDriver_err_cursor fetchOk ts pos off cap h).2⟩

/-- Witness for `read_error_atomicity`: the fetch of tile 1 fails after tile 0
was consumed; the call errors with the cursor parked at tile 1, offset 0. -/
theorem read_error_atomicity_w :
    (readDriver (fun p => p == 0) [[[1], [2]], [[3]]] 0 0 10).ok = false ∧
    ((fun p => p == 0)
        (readDriver (fun p => p == 0) [[[1], [2]], [[3]]] 0 0 10).tilePos = false ∧
      (readDriver (fun p => p == 0) [[[1], [2]], [[3]]] 0 0 10).cellOff =
        (if (readDriver (fun p => p == 0) [[[1], [2]], [[3]]] 0 0 10).tilePos = 0
          then 0 else 0) ∧
      (readDriver (fun p => p == 0) [[[1], [2]], [[3]]] 0 0 10).overflow = false) :=
  ⟨by decide,
    read_error_atomicity (fun p => p == 0) [[[1], [2]], [[3]]] 0 0 10 (by decide)⟩

/-- **C10** (the copy stage is total).  `copy_from_tile_buffer` — modelling the
`void`-returning `copy_from_tile_buffer_*` family — has no failure outcome: it
only yields copied cells, a new cursor and the overflow flag.  Consequently a
`TILEDB_RS_ERR` result of the driver can only originate in the tile-fetch
stage: when every fetch succeeds the driver returns `TILEDB_RS_OK`, and an
error return pinpoints a tile whose fetch failed. -/
theorem copy_stage_total (fetchOk : Nat → Bool) (ts : List (List Cell))
    (pos off cap : Nat) :
    ((∀ p, fetchOk p = true) → (readDriver fetchOk ts pos off cap).ok = true) ∧
    ((readDriver fetchOk ts pos off cap).ok = false →
      fetchOk (readDriver fetchOk ts pos off cap).tilePos = false) :=
  ⟨readDriver_ok_of_fetchOk fetchOk ts pos off cap,
    readDriver_err_fetch fetchOk ts pos off cap⟩

/-- Witness for `copy_stage_total`: with an always succeeding fetch oracle a
two-tile query cannot return an error. -/
theorem copy_stage_total_w :
    (readDriver (fun _ => true) [[[5]], [[6], [7]]] 0 0 3).ok = true :=
  (copy_stage_total (fun _ => true) [[[5]], [[6], [7]]] 0 0 3).1 (fun _ => rfl)

/-- Whether a cell with coordinates `c` lies in the subarray `sub` (per-
dimension inclusive bounds; spec section 3). -/
def inSubarray (sub : List (Int × Int)) (c : List Int) : Bool :=
  (sub.zip c).all fun rc => decide (rc.1.1 ≤ rc.2) && decide (rc.2 ≤ rc.1.2)

/-- Modelled from the spec: the scan of `compute_cell_pos_ranges` (declaration
only, `read_state.h:207-208`; spec section 4.3) walks the coordinates tile in
tile-local order, carrying the open run of qualifying positions, and emits the
closed `[start, end]` runs. -/
def cellPosRangesScan (sub : List (Int × Int)) :
    List (List Int) → Nat → Option (Nat × Nat) → List (Nat × Nat)
  | [], _, Option.none => []
  | [], _, some r => [r]
  | c :: cs, i, Option.none =>
    if inSubarray sub c then cellPosRangesScan sub cs (i + 1) (some (i, i))
    else cellPosRangesScan sub cs (i + 1) Option.none
  | c :: cs, i, some se =>
    if inSubarray sub c then cellPosRangesScan sub cs (i + 1) (some (se.1, i))
    else se :: cellPosRangesScan sub cs (i + 1) Option.none

/-- Modelled from the spec: `compute_cell_pos_ranges` computes the qualifying
cell-position ranges of a sparse tile from the coordinates tile and the
subarray alone. -/
def compute_cell_pos_ranges (sub : List (Int × Int))
    (coordsTile : List (List Int)) : List (Nat × Nat) :=
  cellPosRangesScan sub coordsTile 0 Option.none

/-- The sparse bookkeeping of one `OverlappingTile` (`read_state.h:62-91`): the
stored `cell_pos_ranges_` (absent until first needed) and, for the proof, a
count of how many times the ranges were computed. -/
structure TileRangesState where
  cellPosRanges : Option (List (Nat × Nat))
  computeCount : Nat
  deriving Repr, DecidableEq

/-- Modelled from the spec (invariant 3; spec section 4.6 step 3): when an
attribute reaches a sparse tile, `cell_pos_ranges_` is computed only if still
absent — from the coordinates tile and the subarray, never from the attribute —
and stored on the tile; a present list is reused unchanged. -/
def serveAttribute (sub : List (Int × Int)) (coordsTile : List (List Int))
    (st : TileRangesState) (_attributeId : Nat) : TileRangesState :=
  match st.cellPosRanges with
  | some _ => st
  | Option.none => ⟨some (compute_cell_pos_ranges sub coordsTile), st.computeCount + 1⟩

/-- Modelled from the spec: the attributes of a query reach the tile one after
the other, in any order and with repetitions. -/
def serveAttributes (sub : List (Int × Int)) (coordsTile : List (List Int))
    (st : TileRangesState) (attrs : List Nat) : TileRangesState :=
  attrs.foldl (serveAttribute sub coordsTile) st

theorem serveAttributes_of_some (sub : List (Int × Int))
    (coordsTile : List (List Int)) (r : List (Nat × Nat)) (n : Nat)
    (attrs : List Nat) :
    serveAttributes sub coordsTile ⟨some r, n⟩ attrs = ⟨some r, n⟩ := by
  induction attrs with
  | nil => rfl
  | cons a attrs ih => exact ih

/-- **C6** (sparse once-per-tile invariant).  For a fresh sparse tile and any
nonempty sequence of attribute visits, `cell_pos_ranges_` is computed exactly
once (by the first visiting attribute, from the coordinates tile), every later
attribute reuses the stored list unchanged, and the stored list is
`compute_cell_pos_ranges sub coordsTile` — identical regardless of which
attributes visit and in which order; moreover for an arbitrary visit sequence
the computation happens at most once. -/
theorem sparse_ranges_once (sub : List (Int × Int))
    (coordsTile : List (List Int)) (attrs : List Nat) (h : attrs ≠ []) :
    serveAttributes sub coordsTile ⟨Option.none, 0⟩ attrs =
      ⟨some (compute_cell_pos_ranges sub coordsTile), 1⟩ ∧
    ∀ visits : List Nat,
      (serveAttributes sub coordsTile ⟨Option.none, 0⟩ visits).computeCount ≤ 1 := by
  constructor
  · match attrs with
    | [] => exact absurd rfl h
    | a :: attrs =>
      show serveAttributes sub coordsTile
        (serveAttribute sub coordsTile ⟨Option.none, 0⟩ a) attrs = _
      exact serveAttributes_of_some sub coordsTile _ 1 attrs
  · intro visits
    match visits with
    | [] => exact Nat.zero_le 1
    | v :: visits =>
      show (serveAttributes sub coordsTile
        (serveAttribute sub coordsTile ⟨Option.none, 0⟩ v) visits).computeCount ≤ 1
      rw [show serveAttribute sub coordsTile ⟨Option.none, 0⟩ v =
        (⟨some (compute_cell_pos_ranges sub coordsTile), 1⟩ : TileRangesState) from rfl]
      rw [serveAttributes_of_some]

/-- Witness for `sparse_ranges_once`: two attributes visit a two-cell sparse
tile; the ranges are computed once, by the first. -/
theorem sparse_ranges_once_w :
    ([7, 3] : List Nat) ≠ [] ∧
    (serveAttributes [((0 : Int), (5 : Int))] [[1], [9]] ⟨Option.none, 0⟩ [7, 3] =
        ⟨some (compute_cell_pos_ranges [((0 : Int), (5 : Int))] [[1], [9]]), 1⟩ ∧
      ∀ visits : List Nat,
        (serveAttributes [((0 : Int), (5 : Int))] [[1], [9]]
          ⟨Option.none, 0⟩ visits).computeCount ≤ 1) :=
  ⟨by decide, sparse_ranges_once [((0 : Int), (5 : Int))] [[1], [9]] [7, 3]
    (by decide)⟩

/-- Modelled from the spec: `shift_var_offsets` (declaration only,
`read_state.h:963-970`; spec section 4.5): each copied on-disk start offset is
rewritten by adding `current_var_buffer_offset −
source_tile_offset_of_first_copied_cell` to it; the first copied cell's source
offset is the head of the copied slice of the offsets tile. -/
def shift_var_offsets (bufVarOffset : Int) (srcOffs : List Int) : List Int :=
  srcOffs.map fun o => o + (bufVarOffset - srcOffs.headI)

/-- **C7** (variable-attribute offset rewriting).  For every variable-size
attribute and every read call — given the source offsets of the copied cells
(strictly increasing on disk, all below the end `endOff` of the copied region,
so that the values bytes written are `endOff - srcOffs.headI`) — each written
offset equals the on-disk offset plus (current var-buffer offset − source
offset of the first copied cell); consequently the written offsets are strictly
increasing within the call and, after subtracting the first written offset,
every offset lies in the half-open interval `[0, values_bytes_written)`. -/
theorem var_offsets_rewrite (cur endOff : Int) (srcOffs : List Int)
    (hne : srcOffs ≠ [])
    (hmono : srcOffs.Chain' (fun a b => a < b))
    (hend : ∀ o ∈ srcOffs, o < endOff) :
    (∀ i : Nat, (shift_var_offsets cur srcOffs)[i]? =
      (srcOffs[i]?).map fun o => o + (cur - srcOffs.headI)) ∧
    (shift_var_offsets cur srcOffs).Chain' (fun a b => a < b) ∧
    ∀ o ∈ shift_var_offsets cur srcOffs,
      0 ≤ o - (shift_var_offsets cur srcOffs).headI ∧
      o - (shift_var_offsets cur srcOffs).headI < endOff - srcOffs.headI := by
  refine ⟨?_, ?_, ?_⟩
  · intro i
    simp [shift_var_offsets]
  · rw [shift_var_offsets, List.chain'_map]
    exact hmono.imp fun hab => by omega
  · cases srcOffs with
    | nil => exact absurd rfl hne
    | cons h0 t =>
      intro o ho
      obtain ⟨x, hx, rfl⟩ := List.mem_map.mp ho
      have hpw := List.chain'_iff_pairwise.mp hmono
      have hle : h0 ≤ x := by
        rcases List.mem_cons.mp hx with rfl | hxt
        · exact le_refl x
        · exact le_of_lt ((List.pairwise_cons.mp hpw).1 x hxt)
      have hxe : x < endOff := hend x hx
      have hhead : (shift_var_offsets cur (h0 :: t)).headI = h0 + (cur - h0) := rfl
      rw [hhead]
      show (0 : Int) ≤ x + (cur - (h0 :: t).headI) - (h0 + (cur - h0)) ∧
        x + (cur - (h0 :: t).headI) - (h0 + (cur - h0)) < endOff - (h0 :: t).headI
      show (0 : Int) ≤ x + (cur - h0) - (h0 + (cur - h0)) ∧
        x + (cur - h0) - (h0 + (cur - h0)) < endOff - h0
      omega

/-- Witness for `var_offsets_rewrite`: source offsets 2, 4, 7 of a copied
region ending at 10, rewritten for a values buffer currently at offset 5. -/
theorem var_offsets_rewrite_w :
    (([2, 4, 7] : List Int) ≠ [] ∧
      ([2, 4, 7] : List Int).Chain' (fun a b => a < b) ∧
      ∀ o ∈ ([2, 4, 7] : List Int), o < 10) ∧
    ((∀ i : Nat, (shift_var_offsets 5 [2, 4, 7])[i]? =
        (([2, 4, 7] : List Int)[i]?).map fun o =>
          o + (5 - ([2, 4, 7] : List Int).headI)) ∧
      (shift_var_offsets 5 [2, 4, 7]).Chain' (fun a b => a < b) ∧
      ∀ o ∈ shift_var_offsets 5 [2, 4, 7],
        0 ≤ o - (shift_var_offsets 5 [2, 4, 7]).headI ∧
        o - (shift_var_offsets 5 [2, 4, 7]).headI <
          10 - ([2, 4, 7] : List Int).headI) :=
  ⟨⟨by decide, by norm_num [List.chain'_cons], by decide⟩,
    var_offsets_rewrite 5 10 [2, 4, 7] (by decide)
      (by norm_num [List.chain'_cons]) (by decide)⟩

/-- Modelled from the spec: `init_range_in_tile_domain` (declaration only,
`read_state.h:656-660`; spec section 4.1): per dimension `d` the subarray
endpoints are translated to tile-domain coordinates by
`tlo_d = floor((lo_d − domain_lo_d) / extent_d)` and
`thi_d = floor((hi_d − domain_lo_d) / extent_d)`, stored as
`range_in_tile_domain_` (`read_state.h:158-163`).  Floor division is `Int.fdiv`. -/
def init_range_in_tile_domain :
    List Int → List Int → List Int → List Int → List (Int × Int)
  | lo :: los, hi :: his, dlo :: dlos, e :: es =>
    ((lo - dlo).fdiv e, (hi - dlo).fdiv e) :: init_range_in_tile_domain los his dlos es
  | _, _, _, _ => []

/-- **C8** (dense tile-domain translation).  For every dense subarray and every
dimension `d`, the stored `range_in_tile_domain` entry satisfies
`tlo_d = floor((lo_d − domain_lo_d) / extent_d)` and
`thi_d = floor((hi_d − domain_lo_d) / extent_d)`. -/
theorem range_in_tile_domain_formula (lo hi dlo ext : List Int) (d : Nat)
    (h1 : lo.length = hi.length) (h2 : hi.length = dlo.length)
    (h3 : dlo.length = ext.length) (hd : d < lo.length) :
    (init_range_in_tile_domain lo hi dlo ext).getD d (0, 0) =
      ((lo.getD d 0 - dlo.getD d 0).fdiv (ext.getD d 0),
       (hi.getD d 0 - dlo.getD d 0).fdiv (ext.getD d 0)) := by
  induction lo generalizing hi dlo ext d with
  | nil => exact absurd hd (by simp)
  | cons a lo ih =>
    cases hi with
    | nil => exact absurd h1 (by simp)
    | cons b hi =>
      cases dlo with
      | nil => exact absurd h2 (by simp)
      | cons c dlo =>
        cases ext with
        | nil => exact absurd h3 (by simp)
        | cons e ext =>
          cases d with
          | zero => rfl
          | succ d =>
            simp only [init_range_in_tile_domain, List.getD_cons_succ]
            exact ih hi dlo ext d (by simpa using h1) (by simpa using h2)
              (by simpa using h3) (by simpa using hd)

/-- Witness for `range_in_tile_domain_formula`: the spec's scenario array,
domain lower bounds (0, 0), tile extents (5, 5), subarray [3, 9] × [2, 3],
checked at dimension 1. -/
theorem range_in_tile_domain_formula_w :
    (([3, 2] : List Int).length = ([9, 3] : List Int).length ∧
      ([9, 3] : List Int).length = ([0, 0] : List Int).length ∧
      ([0, 0] : List Int).length = ([5, 5] : List Int).length ∧
      1 < ([3, 2] : List Int).length) ∧
    (init_range_in_tile_domain [3, 2] [9, 3] [0, 0] [5, 5]).getD 1 (0, 0) =
      ((([3, 2] : List Int).getD 1 0 - ([0, 0] : List Int).getD 1 0).fdiv
          (([5, 5] : List Int).getD 1 0),
       (([9, 3] : List Int).getD 1 0 - ([0, 0] : List Int).getD 1 0).fdiv
          (([5, 5] : List Int).getD 1 0)) :=
  ⟨⟨by decide, by decide, by decide, by decide⟩,
    range_in_tile_domain_formula [3, 2] [9, 3] [0, 0] [5, 5] 1
      (by decide) (by decide) (by decide) (by decide)⟩

/-- The two code paths a FULL-overlap fixed-size copy may take
(`copy_tile_full_direct`, `read_state.h:470-475`, versus the cached path). -/
inductive CopyPath
  | direct | cached
  deriving Repr, DecidableEq

/-- Outcome of `copy_tile_full` for a fixed-size attribute: the path taken,
the bytes appended to the caller buffer, and whether the local tile cache was
used. -/
structure CopyTileFullResult where
  path : CopyPath
  out : List Nat
  usedTileCache : Bool
  deriving Repr, DecidableEq

/-- Modelled from the spec: `copy_tile_full` (declaration only,
`read_state.h:441-445`; spec sections 4.5 and 9, open question 1): for a dense
FULL-overlap tile with a fixed-size attribute, the direct file-to-buffer path
(`copy_tile_full_direct`) is taken exactly when the whole tile fits in the
remaining free buffer space and `tiles_offsets_[a]` is still at the start of
the tile; in every other case the tile is copied through the local tile
cache. -/
def copy_tile_full (tile : List Nat) (freeSpace tilesOffset : Nat) :
    CopyTileFullResult :=
  if tilesOffset = 0 ∧ tile.length ≤ freeSpace then
    ⟨CopyPath.direct, tile, false⟩
  else
    ⟨CopyPath.cached, (tile.drop tilesOffset).take freeSpace, true⟩

/-- **C9** (direct-copy condition for dense FULL-overlap tiles, fixed-size
attribute).  The engine copies the tile directly from the file into the output
buffer — bypassing the local tile cache — exactly when the whole tile fits in
the remaining free buffer space and the tile has not already been partially
consumed (`tiles_offsets_` at the tile start); in every other case it falls
back to the cached path, and either way the bytes appended to the buffer are
the unconsumed part of the tile truncated to the free space. -/
theorem copy_tile_full_direct_condition (tile : List Nat)
    (freeSpace tilesOffset : Nat) :
    ((copy_tile_full tile freeSpace tilesOffset).path = CopyPath.direct ↔
      tile.length ≤ freeSpace ∧ tilesOffset = 0) ∧
    ((copy_tile_full tile freeSpace tilesOffset).path = CopyPath.direct →
      (copy_tile_full tile freeSpace tilesOffset).usedTileCache = false) ∧
    (copy_tile_full tile freeSpace tilesOffset).out =
      (tile.drop tilesOffset).take freeSpace := by
  by_cases h : tilesOffset = 0 ∧ tile.length ≤ freeSpace
  · refine ⟨?_, ?_, ?_⟩
    · simp [copy_tile_full, h]
    · intro _
      simp [copy_tile_full, h]
    · rw [copy_tile_full, if_pos h, h.1, List.drop_zero]
      exact (List.take_of_length_le h.2).symm
  · refine ⟨?_, ?_, ?_⟩
    · rw [copy_tile_full, if_neg h]
      constructor
      · intro hp
        exact absurd hp (by simp)
      · intro hp
        exact absurd (And.intro hp.2 hp.1) h
    · rw [copy_tile_full, if_neg h]
      intro hp
      exact absurd hp (by simp)
    · rw [copy_tile_full, if_neg h]

/-- Witness for `copy_tile_full_direct_condition`: a four-byte tile, six bytes
of free space, cursor at the tile start — the direct path is chosen. -/
theorem copy_tile_full_direct_condition_w :
    (copy_tile_full [1, 2, 3, 4] 6 0).path = CopyPath.direct :=
  (copy_tile_full_direct_condition [1, 2, 3, 4] 6 0).1.mpr ⟨by decide, rfl⟩
